/-
Verification of the linear-regression notebook (normal equation and batch
gradient descent) against its specification.

The source manipulates numpy double-precision arrays; we model real
arithmetic exactly by ℚ (a computable field), 1-D arrays by `List ℚ` and
2-D arrays by `List (List ℚ)`.  Numpy runtime failures that the code can
hit (shape mismatches in `dot`/subtraction, `np.linalg.inv` on a singular
matrix, Python's `ZeroDivisionError` from `1/m` with `m = 0`) are modelled
by an `Except NpError` result; the monadic sequencing of each embedded
function follows the evaluation order of the corresponding Python
statements.
-/
import Mathlib

namespace LR

/-- Errors the notebook's numpy code can raise at run time.
`shapeError` models numpy's `ValueError` on misaligned shapes (and the
failure to interpret a ragged nested list as a 2-D array),
`singular` models `np.linalg.LinAlgError` from `np.linalg.inv`,
`zeroDiv` models Python's `ZeroDivisionError` from `1/m` when `m = 0`. -/
inductive NpError where
  | shapeError : NpError
  | singular : NpError
  | zeroDiv : NpError
deriving DecidableEq, Repr

/-- Number of columns of a 2-D array modelled as a list of rows
(the length of the first row; 0 for an empty array). -/
def ncols (X : List (List ℚ)) : ℕ := (X.headD []).length

/-- The list of rows is rectangular: every row has the length of the
first one.  A genuine numpy 2-D array is always rectangular. -/
def Rect (X : List (List ℚ)) : Prop := ∀ r ∈ X, r.length = ncols X

instance (X : List (List ℚ)) : Decidable (Rect X) := by
  unfold Rect; infer_instance

/-- Dot product of two equally long 1-D arrays (`a.dot(b)` after the
shape check has passed). -/
def dotL (a b : List ℚ) : ℚ := (List.zipWith (· * ·) a b).sum

/-- Matrix–vector product `X.dot(v)` after the shape check has passed:
one dot product per row. -/
def matVecL (X : List (List ℚ)) (v : List ℚ) : List ℚ := X.map (fun r => dotL r v)

/-- `X.T` for a rectangular list of rows: column `j` of `X` becomes row
`j` of the result. -/
def transposeL (X : List (List ℚ)) : List (List ℚ) :=
  (List.range (ncols X)).map (fun j => X.map (fun r => r.getD j 0))

/-- Matrix–matrix product `A.dot(B)` after the shape check has passed. -/
def matMulL (A B : List (List ℚ)) : List (List ℚ) :=
  A.map (fun r => (transposeL B).map (fun c => dotL r c))

/-- `np.dot` of a 2-D array and a 1-D array: requires the operands to be
well formed and the inner dimensions to agree, else `ValueError`. -/
def npMatVec (X : List (List ℚ)) (v : List ℚ) : Except NpError (List ℚ) :=
  if Rect X ∧ ncols X = v.length then .ok (matVecL X v) else .error .shapeError

/-- `np.dot` of two 2-D arrays: requires rectangular operands with
agreeing inner dimensions, else `ValueError`. -/
def npMatMul (A B : List (List ℚ)) : Except NpError (List (List ℚ)) :=
  if Rect A ∧ Rect B ∧ ncols A = B.length then .ok (matMulL A B) else .error .shapeError

/-- Elementwise subtraction of two 1-D arrays with numpy's broadcasting
rule for rank-1 operands: lengths must agree, or one operand must have
length 1 and is then broadcast against the other; otherwise `ValueError`. -/
def npSub (a b : List ℚ) : Except NpError (List ℚ) :=
  if a.length = b.length then .ok (List.zipWith (· - ·) a b)
  else if b.length = 1 then .ok (a.map (fun x => x - b.headD 0))
  else if a.length = 1 then .ok (b.map (fun x => a.headD 0 - x))
  else .error .shapeError

/-- Cofactor (first-row Laplace) expansion of the determinant of a square
matrix over `Fin`; computable, and proved below to agree with
`Matrix.det`. -/
def detQ : {k : ℕ} → Matrix (Fin k) (Fin k) ℚ → ℚ
  | 0, _ => 1
  | k + 1, A =>
    ∑ j : Fin (k + 1), (-1) ^ (j : ℕ) * A 0 j * detQ (A.submatrix Fin.succ j.succAbove)

theorem detQ_eq_det : ∀ {k : ℕ} (A : Matrix (Fin k) (Fin k) ℚ), detQ A = A.det
  | 0, A => by rw [Matrix.det_fin_zero, detQ]
  | k + 1, A => by
    rw [Matrix.det_succ_row_zero, detQ]
    exact Finset.sum_congr rfl fun j _ => by rw [detQ_eq_det]

/-- Computable adjugate over `Fin`; proved below to agree with
`Matrix.adjugate`. -/
def adjQ {k : ℕ} (A : Matrix (Fin k) (Fin k) ℚ) : Matrix (Fin k) (Fin k) ℚ :=
  Matrix.of fun i j => detQ (A.updateRow j (Pi.single i 1))

theorem adjQ_eq_adjugate {k : ℕ} (A : Matrix (Fin k) (Fin k) ℚ) :
    adjQ A = A.adjugate := by
  ext i j
  rw [Matrix.adjugate_apply]
  exact detQ_eq_det _

/-- View a square list-of-rows as a function matrix (entries read with
`getD`, defaulting to 0 outside the lists). -/
def toMat (m n : ℕ) (L : List (List ℚ)) : Matrix (Fin m) (Fin n) ℚ :=
  Matrix.of fun i j => (L.getD i []).getD j 0

/-- View a 1-D array as a function vector. -/
def toVec (n : ℕ) (v : List ℚ) : Fin n → ℚ := fun i => v.getD i 0

/-- Render a function matrix back as a list of rows. -/
def ofMat (m n : ℕ) (M : Matrix (Fin m) (Fin n) ℚ) : List (List ℚ) :=
  (List.finRange m).map (fun i => (List.finRange n).map (fun j => M i j))

/-- `np.linalg.inv`: requires a square 2-D argument and raises
`LinAlgError` when the matrix is singular; otherwise returns the exact
inverse, computed here as `det⁻¹ • adjugate`. -/
def npLinalgInv (M : List (List ℚ)) : Except NpError (List (List ℚ)) :=
  if Rect M ∧ ncols M = M.length then
    let A := toMat M.length M.length M
    if detQ A = 0 then .error .singular
    else .ok (ofMat M.length M.length ((detQ A)⁻¹ • adjQ A))
  else .error .shapeError

/-- The inline design-matrix construction shared by all the notebook's
functions: `ones = np.ones(X.shape[0]); X = np.column_stack([ones, X])`.
Its argument is documented as a 2-D numpy array, which is necessarily
rectangular; a ragged nested list cannot be (or become) such an array and
makes the numpy calls fail, modelled by `shapeError`.  Row `i` of the
result is `1.0` prepended to row `i` of the input. -/
def augment (X : List (List ℚ)) : Except NpError (List (List ℚ)) :=
  if Rect X then .ok (X.map (fun r => 1 :: r)) else .error .shapeError

/-- Embedding of the notebook's `multiple_linear_regression(X, y)`:
`X = np.column_stack([np.ones(X.shape[0]), X])` followed by
`beta = np.linalg.inv(X.T.dot(X)).dot(X.T).dot(y)`, with the numpy
operations sequenced in Python's evaluation order. -/
def multiple_linear_regression (X : List (List ℚ)) (y : List ℚ) :
    Except NpError (List ℚ) := do
  let X ← augment X
  let XtX ← npMatMul (transposeL X) X
  let inv ← npLinalgInv XtX
  let invXt ← npMatMul inv (transposeL X)
  npMatVec invXt y

/-- Embedding of the notebook's first `predict(X, beta)` (the cell next to
the normal-equation solver): augment with the bias column, then `X.dot(beta)`. -/
def predict (X : List (List ℚ)) (beta : List ℚ) : Except NpError (List ℚ) := do
  let X ← augment X
  npMatVec X beta

/-- Embedding of the notebook's second `predict(X, theta)` (the cell next
to the gradient-descent solver, which shadows the first definition):
augment with the bias column, then `X.dot(theta)`. -/
def predictGD (X : List (List ℚ)) (theta : List ℚ) : Except NpError (List ℚ) := do
  let X ← augment X
  npMatVec X theta

/-- Embedding of the notebook's `compute_cost(X, y, theta)`:
`m = len(y)`, `predictions = X.dot(theta)`,
`cost = (1/(2*m)) * np.sum(np.square(predictions - y))`.
In Python `1/(2*m)` is the first operand of the final statement, so with
`m = 0` a `ZeroDivisionError` is raised after `X.dot(theta)` but before
the subtraction `predictions - y` is evaluated. -/
def compute_cost (X : List (List ℚ)) (y theta : List ℚ) : Except NpError ℚ := do
  let m := y.length
  let predictions ← npMatVec X theta
  if m = 0 then .error .zeroDiv
  else do
    let d ← npSub predictions y
    .ok ((1 / (2 * (m : ℚ))) * (d.map (fun t => t ^ 2)).sum)

/-- One iteration of the loop body of the notebook's `gradient_descent`:
`gradients = (1/m) * X.T.dot(X.dot(theta) - y)` followed by
`theta = theta - alpha * gradients` and
`cost_history[i] = compute_cost(X, y, theta)` (with the updated `theta`).
Python evaluates `1/m` first, so `m = 0` raises `ZeroDivisionError`
before any array operation of the statement runs. -/
def gdStep (X : List (List ℚ)) (y : List ℚ) (alpha : ℚ) (theta : List ℚ) :
    Except NpError (List ℚ × ℚ) := do
  let m := y.length
  if m = 0 then .error .zeroDiv
  else do
    let p ← npMatVec X theta
    let d ← npSub p y
    let xtd ← npMatVec (transposeL X) d
    let gradients := xtd.map (fun t => (1 / (m : ℚ)) * t)
    let theta' ← npSub theta (gradients.map (fun t => alpha * t))
    let c ← compute_cost X y theta'
    .ok (theta', c)

/-- The `for i in range(num_iterations)` loop of `gradient_descent`,
threading `theta` and collecting the cost recorded at each iteration in
order.  (The source preallocates `cost_history = np.zeros(num_iterations)`
and assigns slot `i` during iteration `i`; since every slot is written
exactly once, in order, the final array is the list built here.) -/
def gdLoop (X : List (List ℚ)) (y : List ℚ) (alpha : ℚ) :
    ℕ → List ℚ → Except NpError (List ℚ × List ℚ)
  | 0, theta => .ok (theta, [])
  | k + 1, theta => do
    let (theta', c) ← gdStep X y alpha theta
    let (tf, cs) ← gdLoop X y alpha k theta'
    .ok (tf, c :: cs)

/-- Embedding of the notebook's `gradient_descent(X, y, alpha,
num_iterations)`: augment `X` with the bias column, start from
`theta = np.zeros(X.shape[1])`, and run the loop. -/
def gradient_descent (X : List (List ℚ)) (y : List ℚ) (alpha : ℚ)
    (num_iterations : ℕ) : Except NpError (List ℚ × List ℚ) := do
  let X ← augment X
  let theta := List.replicate (ncols X) (0 : ℚ)
  gdLoop X y alpha num_iterations theta

/-- The pure gradient-descent update on the design matrix `X`, written
directly from the mathematical recurrence of the specification:
`θ ← θ − learningRate · (1/m) · Xᵀ(Xθ − y)`. -/
def gradStep (X : List (List ℚ)) (y : List ℚ) (alpha : ℚ) (theta : List ℚ) :
    List ℚ :=
  let g := (matVecL (transposeL X) (List.zipWith (· - ·) (matVecL X theta) y)).map
    (fun t => (1 / (y.length : ℚ)) * t)
  List.zipWith (· - ·) theta (g.map (fun t => alpha * t))

/-- The mean-squared-error cost `(1/(2m)) · Σ (Xθ − y)²` as a pure value. -/
def costVal (X : List (List ℚ)) (y theta : List ℚ) : ℚ :=
  (1 / (2 * (y.length : ℚ))) *
    ((List.zipWith (· - ·) (matVecL X theta) y).map (fun t => t ^ 2)).sum

/-- The design matrix as a pure value (what `augment` returns on a
rectangular input). -/
def designL (F : List (List ℚ)) : List (List ℚ) := F.map (fun r => 1 :: r)

/-- The list `XᵀX` computed by the normal-equation solver. -/
def XtXL (F : List (List ℚ)) : List (List ℚ) :=
  matMulL (transposeL (designL F)) (designL F)

/-- The list `Xᵀy` appearing in the normal equation. -/
def XtyL (F : List (List ℚ)) (y : List ℚ) : List ℚ :=
  matVecL (transposeL (designL F)) y

/-- The iterate of the gradient-descent update reached after `j` steps,
starting from the all-zero vector of length `ncols F + 1`. -/
def gdThetaAt (F : List (List ℚ)) (y : List ℚ) (alpha : ℚ) (j : ℕ) : List ℚ :=
  (gradStep (designL F) y alpha)^[j] (List.replicate (ncols F + 1) 0)

section Lemmas

theorem getD_map_lt {α β : Type} (f : α → β) (l : List α) (d : β) (i : ℕ)
    (h : i < l.length) : (l.map f).getD i d = f (l[i]) := by
  rw [List.getD_eq_getElem _ _ (by simpa using h), List.getElem_map]

theorem getD_getElem {α : Type} (l : List α) (d : α) (i : ℕ) (h : i < l.length) :
    l.getD i d = l[i] := List.getD_eq_getElem l d h

theorem length_designL (F : List (List ℚ)) : (designL F).length = F.length := by
  simp [designL]

theorem rect_designL (F : List (List ℚ)) (h : Rect F) : Rect (designL F) := by
  intro r hr
  simp only [designL, List.mem_map] at hr
  obtain ⟨s, hs, rfl⟩ := hr
  cases hF : F with
  | nil => subst hF; simp at hs
  | cons r0 F' =>
    subst hF
    simp only [ncols, designL, List.map_cons, List.headD_cons, List.length_cons]
    have hs' := h s hs
    have hr0 := h r0 (by simp)
    simp only [ncols, List.headD_cons] at hs' hr0
    simp [hs', hr0]

theorem ncols_designL (F : List (List ℚ)) (h : F ≠ []) :
    ncols (designL F) = ncols F + 1 := by
  cases F with
  | nil => exact absurd rfl h
  | cons r F' => simp [ncols, designL]

theorem designL_ne_nil (F : List (List ℚ)) (h : F ≠ []) : designL F ≠ [] := by
  cases F with
  | nil => exact absurd rfl h
  | cons r F' => simp [designL]

theorem ncols_pos_designL (F : List (List ℚ)) (h : F ≠ []) :
    0 < ncols (designL F) := by rw [ncols_designL F h]; omega

theorem length_transposeL (X : List (List ℚ)) :
    (transposeL X).length = ncols X := by simp [transposeL]

theorem mem_transposeL_length (X : List (List ℚ)) (r : List ℚ)
    (hr : r ∈ transposeL X) : r.length = X.length := by
  simp only [transposeL, List.mem_map] at hr
  obtain ⟨j, _, rfl⟩ := hr
  simp

theorem rect_transposeL (X : List (List ℚ)) : Rect (transposeL X) := by
  intro r hr
  rw [mem_transposeL_length X r hr]
  cases h : transposeL X with
  | nil => rw [h] at hr; simp at hr
  | cons s t =>
    have hs : s ∈ transposeL X := by rw [h]; simp
    simp only [ncols, h, List.headD_cons]
    rw [mem_transposeL_length X s hs]

theorem ncols_transposeL (X : List (List ℚ)) (h : 0 < ncols X) :
    ncols (transposeL X) = X.length := by
  cases hT : transposeL X with
  | nil => have := length_transposeL X; rw [hT] at this; simp at this; omega
  | cons s t =>
    have hs : s ∈ transposeL X := by rw [hT]; simp
    simp only [ncols, hT, List.headD_cons]
    exact mem_transposeL_length X s hs

theorem transposeL_entry (X : List (List ℚ)) (i j : ℕ) (hj : j < ncols X)
    (hi : i < X.length) :
    ((transposeL X).getD j []).getD i 0 = (X.getD i []).getD j 0 := by
  have h1 : (transposeL X).getD j [] = X.map (fun r => r.getD j 0) := by
    rw [transposeL, getD_map_lt _ _ _ _ (by simpa using hj), List.getElem_range]
  rw [h1, getD_map_lt _ _ _ _ hi, getD_getElem _ _ _ hi]

theorem length_matVecL (X : List (List ℚ)) (v : List ℚ) :
    (matVecL X v).length = X.length := by simp [matVecL]

theorem matVecL_entry (X : List (List ℚ)) (v : List ℚ) (i : ℕ)
    (hi : i < X.length) :
    (matVecL X v).getD i 0 = dotL (X.getD i []) v := by
  rw [matVecL, getD_map_lt _ _ _ _ hi, getD_getElem _ _ _ hi]

theorem length_matMulL (A B : List (List ℚ)) :
    (matMulL A B).length = A.length := by simp [matMulL]

theorem mem_matMulL_length (A B : List (List ℚ)) (r : List ℚ)
    (hr : r ∈ matMulL A B) : r.length = ncols B := by
  simp only [matMulL, List.mem_map] at hr
  obtain ⟨s, _, rfl⟩ := hr
  simp [length_transposeL]

theorem rect_matMulL (A B : List (List ℚ)) : Rect (matMulL A B) := by
  intro r hr
  rw [mem_matMulL_length A B r hr]
  cases h : matMulL A B with
  | nil => rw [h] at hr; simp at hr
  | cons s t =>
    have hs : s ∈ matMulL A B := by rw [h]; simp
    simp only [ncols, h, List.headD_cons]
    rw [mem_matMulL_length A B s hs]; rfl

theorem ncols_matMulL (A B : List (List ℚ)) (h : A ≠ []) :
    ncols (matMulL A B) = ncols B := by
  cases A with
  | nil => exact absurd rfl h
  | cons r A' => simp [ncols, matMulL, length_transposeL]

theorem rowlen_of_rect (X : List (List ℚ)) (hR : Rect X) (i : ℕ)
    (hi : i < X.length) : (X.getD i []).length = ncols X := by
  rw [getD_getElem _ _ _ hi]
  exact hR _ (List.getElem_mem hi)

theorem dotL_eq_sum : ∀ {n : ℕ} (a b : List ℚ), a.length = n → b.length = n →
    dotL a b = ∑ i : Fin n, a.getD i 0 * b.getD i 0
  | 0, a, b, ha, _ => by
    rw [List.length_eq_zero] at ha
    subst ha
    simp [dotL]
  | n + 1, a, b, ha, hb => by
    cases a with
    | nil => simp at ha
    | cons a0 a' =>
      cases b with
      | nil => simp at hb
      | cons b0 b' =>
        simp only [List.length_cons, Nat.add_right_cancel_iff] at ha hb
        simp only [dotL, List.zipWith_cons_cons, List.sum_cons, Fin.sum_univ_succ,
          Fin.val_zero, Fin.val_succ, List.getD_cons_zero, List.getD_cons_succ]
        rw [← dotL_eq_sum a' b' ha hb]
        rfl

theorem list_ext_getD {n : ℕ} (a b : List ℚ) (ha : a.length = n)
    (hb : b.length = n) (h : ∀ i : Fin n, a.getD i 0 = b.getD i 0) : a = b := by
  apply List.ext_getElem (ha.trans hb.symm)
  intro i h1 h2
  have := h ⟨i, ha ▸ h1⟩
  rwa [getD_getElem _ _ _ h1, getD_getElem _ _ _ h2] at this

theorem toVec_matVecL {m n : ℕ} (X : List (List ℚ)) (v : List ℚ) (hR : Rect X)
    (hX : X.length = m) (hn : ncols X = n) (hv : v.length = n) :
    toVec m (matVecL X v) = (toMat m n X).mulVec (toVec n v) := by
  funext i
  have hi : (i : ℕ) < X.length := by omega
  simp only [toVec, Matrix.mulVec, Matrix.dotProduct]
  rw [matVecL_entry X v i hi,
    @dotL_eq_sum n (X.getD i []) v (by rw [rowlen_of_rect X hR i hi, hn]) hv]
  rfl

theorem toMat_matMulL {m n p : ℕ} (A B : List (List ℚ)) (hRA : Rect A)
    (_hRB : Rect B) (hA : A.length = m) (hiAB : ncols A = B.length)
    (hB : B.length = n) (hp : ncols B = p) :
    toMat m p (matMulL A B) = toMat m n A * toMat n p B := by
  ext i j
  have hi : (i : ℕ) < A.length := by omega
  have hj : (j : ℕ) < (transposeL B).length := by rw [length_transposeL]; omega
  have hrow : (matMulL A B).getD i [] =
      (transposeL B).map (fun c => dotL (A[(i : ℕ)]) c) := by
    rw [matMulL, getD_map_lt _ _ _ _ hi]
  simp only [toMat, Matrix.of_apply, Matrix.mul_apply]
  rw [hrow, getD_map_lt _ _ _ _ hj,
    @dotL_eq_sum n (A[(i : ℕ)]) ((transposeL B)[(j : ℕ)])
      (by have := hRA _ (List.getElem_mem hi); omega)
      (by rw [mem_transposeL_length B _ (List.getElem_mem hj)]; omega)]
  refine Finset.sum_congr rfl fun k _ => ?_
  have hk : (k : ℕ) < B.length := by omega
  rw [← getD_getElem A [] i hi, ← getD_getElem (transposeL B) [] j hj,
    transposeL_entry B k j (by omega) hk]

theorem length_ofMat {m n : ℕ} (M : Matrix (Fin m) (Fin n) ℚ) :
    (ofMat m n M).length = m := by simp [ofMat]

theorem mem_ofMat_length {m n : ℕ} (M : Matrix (Fin m) (Fin n) ℚ) (r : List ℚ)
    (hr : r ∈ ofMat m n M) : r.length = n := by
  simp only [ofMat, List.mem_map] at hr
  obtain ⟨i, _, rfl⟩ := hr
  simp

theorem rect_ofMat {m n : ℕ} (M : Matrix (Fin m) (Fin n) ℚ) :
    Rect (ofMat m n M) := by
  intro r hr
  rw [mem_ofMat_length M r hr]
  cases h : ofMat m n M with
  | nil => rw [h] at hr; simp at hr
  | cons s t =>
    have hs : s ∈ ofMat m n M := by rw [h]; simp
    simp only [ncols, h, List.headD_cons]
    rw [mem_ofMat_length M s hs]

theorem ncols_ofMat {m n : ℕ} (M : Matrix (Fin m) (Fin n) ℚ) (h : 0 < m) :
    ncols (ofMat m n M) = n := by
  cases hO : ofMat m n M with
  | nil => have := length_ofMat M; rw [hO] at this; simp at this; omega
  | cons s t =>
    have hs : s ∈ ofMat m n M := by rw [hO]; simp
    simp only [ncols, hO, List.headD_cons]
    exact mem_ofMat_length M s hs

theorem toMat_ofMat {m n : ℕ} (M : Matrix (Fin m) (Fin n) ℚ) :
    toMat m n (ofMat m n M) = M := by
  ext i j
  have hi : (i : ℕ) < (List.finRange m).length := by simp
  have hj : (j : ℕ) < (List.finRange n).length := by simp
  simp only [toMat, Matrix.of_apply, ofMat]
  rw [getD_map_lt _ _ _ _ (by simp), List.getElem_finRange,
    getD_map_lt _ _ _ _ (by simp), List.getElem_finRange]
  congr 1

theorem npMatVec_ok (X : List (List ℚ)) (v : List ℚ) (hR : Rect X)
    (h : ncols X = v.length) : npMatVec X v = .ok (matVecL X v) := by
  rw [npMatVec, if_pos ⟨hR, h⟩]

theorem npMatMul_ok (A B : List (List ℚ)) (hA : Rect A) (hB : Rect B)
    (h : ncols A = B.length) : npMatMul A B = .ok (matMulL A B) := by
  rw [npMatMul, if_pos ⟨hA, hB, h⟩]

theorem npSub_ok (a b : List ℚ) (h : a.length = b.length) :
    npSub a b = .ok (List.zipWith (· - ·) a b) := by
  rw [npSub, if_pos h]

theorem compute_cost_ok (X : List (List ℚ)) (y theta : List ℚ) (hR : Rect X)
    (hXy : X.length = y.length) (hy : y ≠ []) (ht : theta.length = ncols X) :
    compute_cost X y theta = .ok (costVal X y theta) := by
  have hm : y.length ≠ 0 := fun h => hy (List.length_eq_zero.mp h)
  have h1 : npMatVec X theta = .ok (matVecL X theta) := npMatVec_ok X theta hR ht.symm
  have h2 : npSub (matVecL X theta) y =
      .ok (List.zipWith (· - ·) (matVecL X theta) y) :=
    npSub_ok _ _ (by rw [length_matVecL, hXy])
  simp only [compute_cost, h1, h2, if_neg hm, bind, Except.bind, costVal]

theorem length_gradStep (X : List (List ℚ)) (y : List ℚ) (alpha : ℚ)
    (theta : List ℚ) (ht : theta.length = ncols X) :
    (gradStep X y alpha theta).length = ncols X := by
  simp [gradStep, ht, length_matVecL, length_transposeL]

theorem gdStep_ok (X : List (List ℚ)) (y : List ℚ) (alpha : ℚ) (theta : List ℚ)
    (hR : Rect X) (hc : 0 < ncols X) (hXy : X.length = y.length) (hy : y ≠ [])
    (ht : theta.length = ncols X) :
    gdStep X y alpha theta =
      .ok (gradStep X y alpha theta, costVal X y (gradStep X y alpha theta)) := by
  have hm : y.length ≠ 0 := fun h => hy (List.length_eq_zero.mp h)
  have h1 : npMatVec X theta = .ok (matVecL X theta) := npMatVec_ok X theta hR ht.symm
  have h2 : npSub (matVecL X theta) y =
      .ok (List.zipWith (· - ·) (matVecL X theta) y) :=
    npSub_ok _ _ (by rw [length_matVecL, hXy])
  have hd : (List.zipWith (· - ·) (matVecL X theta) y).length = y.length := by
    rw [List.length_zipWith, length_matVecL, hXy, min_self]
  have h3 : npMatVec (transposeL X) (List.zipWith (· - ·) (matVecL X theta) y) =
      .ok (matVecL (transposeL X) (List.zipWith (· - ·) (matVecL X theta) y)) :=
    npMatVec_ok _ _ (rect_transposeL X) (by rw [ncols_transposeL X hc, hd, hXy])
  have h4 : npSub theta
      (((matVecL (transposeL X) (List.zipWith (· - ·) (matVecL X theta) y)).map
        (fun t => (1 / (y.length : ℚ)) * t)).map (fun t => alpha * t)) =
      .ok (gradStep X y alpha theta) := by
    rw [npSub_ok _ _ (by simp [length_matVecL, length_transposeL, ht])]
    rfl
  have h5 : compute_cost X y (gradStep X y alpha theta) =
      .ok (costVal X y (gradStep X y alpha theta)) :=
    compute_cost_ok X y _ hR hXy hy (length_gradStep X y alpha theta ht)
  simp only [gdStep, h1, h2, h3, h4, h5, if_neg hm, bind, Except.bind]

theorem gdLoop_ok (X : List (List ℚ)) (y : List ℚ) (alpha : ℚ) (hR : Rect X)
    (hc : 0 < ncols X) (hXy : X.length = y.length) (hy : y ≠ []) :
    ∀ (k : ℕ) (theta : List ℚ), theta.length = ncols X →
    gdLoop X y alpha k theta =
      .ok ((gradStep X y alpha)^[k] theta,
        (List.range k).map
          (fun i => costVal X y ((gradStep X y alpha)^[i + 1] theta)))
  | 0, theta, _ => by simp [gdLoop]
  | k + 1, theta, ht => by
    have hstep := gdStep_ok X y alpha theta hR hc hXy hy ht
    have hrec := gdLoop_ok X y alpha hR hc hXy hy k (gradStep X y alpha theta)
      (length_gradStep X y alpha theta ht)
    simp only [gdLoop, hstep, hrec, bind, Except.bind]
    rw [List.range_succ_eq_map, List.map_cons, List.map_map]
    rfl

theorem gradient_descent_ok (F : List (List ℚ)) (y : List ℚ) (alpha : ℚ)
    (it : ℕ) (hR : Rect F) (hlen : y.length = F.length) (hy : y ≠ []) :
    gradient_descent F y alpha it =
      .ok (gdThetaAt F y alpha it,
        (List.range it).map
          (fun i => costVal (designL F) y (gdThetaAt F y alpha (i + 1)))) := by
  have hF : F ≠ [] := by
    intro h
    subst h
    exact hy (List.length_eq_zero.mp (by simpa using hlen))
  have h1 : augment F = .ok (designL F) := by rw [augment, if_pos hR]; rfl
  have h2 := gdLoop_ok (designL F) y alpha (rect_designL F hR)
    (ncols_pos_designL F hF) (by rw [length_designL, hlen])
    hy it (List.replicate (ncols (designL F)) (0 : ℚ))
    (by simp)
  rw [ncols_designL F hF] at h2
  simp only [gradient_descent, h1, bind, Except.bind, ncols_designL F hF, h2, gdThetaAt]

theorem length_XtXL (F : List (List ℚ)) (hF : F ≠ []) :
    (XtXL F).length = ncols F + 1 := by
  rw [XtXL, length_matMulL, length_transposeL, ncols_designL F hF]

theorem rect_XtXL (F : List (List ℚ)) : Rect (XtXL F) := rect_matMulL _ _

theorem ncols_XtXL (F : List (List ℚ)) (hF : F ≠ []) :
    ncols (XtXL F) = ncols F + 1 := by
  have hpos : 0 < ncols (designL F) := ncols_pos_designL F hF
  rw [XtXL, ncols_matMulL _ _ (by
    intro h
    have := length_transposeL (designL F)
    rw [h] at this
    simp at this
    omega), ncols_designL F hF]

theorem length_XtyL (F : List (List ℚ)) (y : List ℚ) (hF : F ≠ []) :
    (XtyL F y).length = ncols F + 1 := by
  rw [XtyL, length_matVecL, length_transposeL, ncols_designL F hF]

/-- Main lemma for the normal-equation solver: on rectangular data of
matching dimensions whose `XᵀX` is invertible, `multiple_linear_regression`
succeeds and returns the unique exact solution of the normal equations
`XᵀX · θ = Xᵀy`. -/
theorem mlr_solves (F : List (List ℚ)) (y : List ℚ) (hR : Rect F) (hF : F ≠ [])
    (hlen : y.length = F.length)
    (hdet : detQ (toMat (XtXL F).length (XtXL F).length (XtXL F)) ≠ 0) :
    ∃ θ, multiple_linear_regression F y = .ok θ ∧ θ.length = ncols F + 1 ∧
      matVecL (XtXL F) θ = XtyL F y ∧
      ∀ θ', θ'.length = ncols F + 1 → matVecL (XtXL F) θ' = XtyL F y → θ' = θ := by
  set X := designL F with hX
  have hRX : Rect X := rect_designL F hR
  have hcX : 0 < ncols X := ncols_pos_designL F hF
  have hXlen : X.length = F.length := length_designL F
  have hTlen : (transposeL X).length = ncols X := length_transposeL X
  have hTcols : ncols (transposeL X) = X.length := ncols_transposeL X hcX
  set k := (XtXL F).length with hk
  have hkX : k = ncols X := by
    rw [hk, XtXL, length_matMulL, length_transposeL, hX]
  have hkpos : 0 < k := by omega
  have hkF : k = ncols F + 1 := by rw [hk, length_XtXL F hF]
  have hXtXlen : (XtXL F).length = k := rfl
  have hXtXcols : ncols (XtXL F) = k := by rw [ncols_XtXL F hF, hkF]
  set B := toMat k k (XtXL F) with hB
  set invL := ofMat k k ((detQ B)⁻¹ • adjQ B) with hinvL
  set Alist := matMulL invL (transposeL X) with hAlist
  set θ := matVecL Alist y with hθ
  have hinvLen : invL.length = k := length_ofMat _
  have hinvCols : ncols invL = k := ncols_ofMat _ hkpos
  have hAlen : Alist.length = k := by rw [hAlist, length_matMulL, hinvLen]
  have hAcols : ncols Alist = X.length := by
    rw [hAlist, ncols_matMulL _ _ (by
      intro h
      rw [h] at hinvLen
      simp at hinvLen
      omega), hTcols]
  have h1 : augment F = .ok X := by rw [augment, if_pos hR]; rfl
  have h2 : npMatMul (transposeL X) X = .ok (XtXL F) :=
    npMatMul_ok _ _ (rect_transposeL X) hRX hTcols
  have h3 : npLinalgInv (XtXL F) = .ok invL := by
    rw [npLinalgInv, if_pos ⟨rect_XtXL F, by rw [hXtXcols]⟩]
    simp only
    rw [if_neg hdet]
  have h4 : npMatMul invL (transposeL X) = .ok Alist :=
    npMatMul_ok _ _ (rect_ofMat _) (rect_transposeL X) (by rw [hinvCols, hTlen, hkX])
  have h5 : npMatVec Alist y = .ok θ :=
    npMatVec_ok _ _ (rect_matMulL _ _) (by rw [hAcols, hXlen, hlen])
  have hfit : multiple_linear_regression F y = .ok θ := by
    simp only [multiple_linear_regression, h1, h2, h3, h4, h5, bind, Except.bind]
  have hθlen : θ.length = ncols F + 1 := by
    rw [hθ, length_matVecL, hAlen, hkF]
  -- the Fin-matrix bridge
  set m := X.length with hm
  have hymlen : y.length = m := by omega
  set T := toMat k m (transposeL X) with hT
  set M := toMat m k X with hM
  have hBTM : B = T * M :=
    toMat_matMulL (transposeL X) X (rect_transposeL X) hRX (by rw [hTlen, hkX])
      hTcols rfl (by rw [hkX])
  have hN : toMat k k invL = (detQ B)⁻¹ • adjQ B := toMat_ofMat _
  have hAm : toMat k m Alist = toMat k k invL * T :=
    toMat_matMulL invL (transposeL X) (rect_ofMat _) (rect_transposeL X) hinvLen
      (by rw [hinvCols, hTlen, hkX]) (by rw [hTlen, hkX]) hTcols
  have hBdet : (B : Matrix (Fin k) (Fin k) ℚ).det ≠ 0 := by
    rw [← detQ_eq_det]; exact hdet
  have hBinv : B * ((detQ B)⁻¹ • adjQ B) = 1 := by
    rw [adjQ_eq_adjugate, detQ_eq_det, Matrix.mul_smul, Matrix.mul_adjugate,
      smul_smul, inv_mul_cancel₀ hBdet, one_smul]
  have hinvB : ((detQ B)⁻¹ • adjQ B) * B = 1 := by
    rw [adjQ_eq_adjugate, detQ_eq_det, Matrix.smul_mul, Matrix.adjugate_mul,
      smul_smul, inv_mul_cancel₀ hBdet, one_smul]
  have hθvec : toVec k θ = (toMat k m Alist).mulVec (toVec m y) :=
    toVec_matVecL Alist y (rect_matMulL _ _) hAlen hAcols hymlen
  have hsol : matVecL (XtXL F) θ = XtyL F y := by
    apply list_ext_getD _ _ (by rw [length_matVecL, ← hk])
      (by rw [XtyL, length_matVecL, hTlen, hkX])
    intro i
    have hLHS : toVec k (matVecL (XtXL F) θ) = B.mulVec (toVec k θ) :=
      toVec_matVecL (XtXL F) θ (rect_XtXL F) rfl hXtXcols (by rw [hθlen, hkF])
    have hRHS : toVec k (XtyL F y) = T.mulVec (toVec m y) :=
      toVec_matVecL (transposeL X) y (rect_transposeL X) (by rw [hTlen, hkX])
        hTcols hymlen
    have : B.mulVec (toVec k θ) = T.mulVec (toVec m y) := by
      rw [hθvec, hAm, hN, ← Matrix.mulVec_mulVec, Matrix.mulVec_mulVec, hBinv,
        Matrix.one_mulVec]
    have h := congrFun (hLHS.trans (this.trans hRHS.symm)) i
    exact h
  refine ⟨θ, hfit, hθlen, hsol, ?_⟩
  intro θ' hlen' hsol'
  have hv' : B.mulVec (toVec k θ') = T.mulVec (toVec m y) := by
    have hL : toVec k (matVecL (XtXL F) θ') = B.mulVec (toVec k θ') :=
      toVec_matVecL (XtXL F) θ' (rect_XtXL F) rfl hXtXcols (by rw [hlen', hkF])
    have hRHS : toVec k (XtyL F y) = T.mulVec (toVec m y) :=
      toVec_matVecL (transposeL X) y (rect_transposeL X) (by rw [hTlen, hkX])
        hTcols hymlen
    rw [← hL, hsol', hRHS]
  have hv : B.mulVec (toVec k θ) = T.mulVec (toVec m y) := by
    have hL : toVec k (matVecL (XtXL F) θ) = B.mulVec (toVec k θ) :=
      toVec_matVecL (XtXL F) θ (rect_XtXL F) rfl hXtXcols (by rw [hθlen, hkF])
    have hRHS : toVec k (XtyL F y) = T.mulVec (toVec m y) :=
      toVec_matVecL (transposeL X) y (rect_transposeL X) (by rw [hTlen, hkX])
        hTcols hymlen
    rw [← hL, hsol, hRHS]
  have : toVec k θ' = toVec k θ := by
    have h1' := congrArg (((detQ B)⁻¹ • adjQ B).mulVec) (hv'.trans hv.symm)
    rwa [Matrix.mulVec_mulVec, Matrix.mulVec_mulVec, hinvB, Matrix.one_mulVec,
      Matrix.one_mulVec] at h1'
  exact @list_ext_getD k θ' θ (by omega) (by omega) (fun i => congrFun this i)

theorem bind_ok_inv {α β : Type} {e : Except NpError α} {f : α → Except NpError β}
    {b : β} (h : (e >>= f) = .ok b) : ∃ a, e = .ok a ∧ f a = .ok b := by
  cases e with
  | error x => exact Except.noConfusion h
  | ok a => exact ⟨a, rfl, h⟩

theorem compute_cost_nonneg (X : List (List ℚ)) (y theta : List ℚ) (c : ℚ)
    (h : compute_cost X y theta = .ok c) : 0 ≤ c := by
  rw [compute_cost] at h
  obtain ⟨p, _, h⟩ := bind_ok_inv h
  by_cases hm : y.length = 0
  · rw [if_pos hm] at h
    exact Except.noConfusion h
  · rw [if_neg hm] at h
    obtain ⟨d, _, h⟩ := bind_ok_inv h
    have hc : c = 1 / (2 * (y.length : ℚ)) * (d.map (fun t => t ^ 2)).sum :=
      (Except.ok.inj h).symm
    rw [hc]
    have h2 : (0:ℚ) ≤ (d.map (fun t => t ^ 2)).sum := by
      apply List.sum_nonneg
      intro x hx
      obtain ⟨t, _, rfl⟩ := List.mem_map.mp hx
      positivity
    have h1 : (0:ℚ) ≤ 1 / (2 * (y.length : ℚ)) := by positivity
    exact mul_nonneg h1 h2

theorem gdStep_cost_nonneg (X : List (List ℚ)) (y : List ℚ) (alpha : ℚ)
    (theta tf : List ℚ) (c : ℚ) (h : gdStep X y alpha theta = .ok (tf, c)) :
    0 ≤ c := by
  rw [gdStep] at h
  by_cases hm : y.length = 0
  · rw [if_pos hm] at h
    exact Except.noConfusion h
  · rw [if_neg hm] at h
    obtain ⟨p, _, h⟩ := bind_ok_inv h
    obtain ⟨d, _, h⟩ := bind_ok_inv h
    obtain ⟨xtd, _, h⟩ := bind_ok_inv h
    obtain ⟨theta', _, h⟩ := bind_ok_inv h
    obtain ⟨c', hc', h⟩ := bind_ok_inv h
    have hcost := compute_cost_nonneg X y theta' c' hc'
    have := Except.ok.inj h
    have hc2 : c' = c := congrArg Prod.snd this
    rwa [hc2] at hcost

theorem gdLoop_costs_nonneg (X : List (List ℚ)) (y : List ℚ) (alpha : ℚ) :
    ∀ (k : ℕ) (theta tf : List ℚ) (cs : List ℚ),
      gdLoop X y alpha k theta = .ok (tf, cs) → ∀ c ∈ cs, 0 ≤ c
  | 0, theta, tf, cs, h => by
    rw [gdLoop] at h
    have := (Except.ok.inj h)
    have hcs : cs = [] := (congrArg Prod.snd this).symm
    subst hcs
    intro c hc
    simp at hc
  | k + 1, theta, tf, cs, h => by
    rw [gdLoop] at h
    obtain ⟨a, ha, h⟩ := bind_ok_inv h
    obtain ⟨theta', c0⟩ := a
    obtain ⟨b, hb, h⟩ := bind_ok_inv h
    obtain ⟨tf', cs'⟩ := b
    have := Except.ok.inj h
    have hcs : cs = c0 :: cs' := (congrArg Prod.snd this).symm
    subst hcs
    intro c hc
    rcases List.mem_cons.mp hc with rfl | hmem
    · exact gdStep_cost_nonneg X y alpha theta theta' c ha
    · exact gdLoop_costs_nonneg X y alpha k theta' tf' cs' hb c hmem

theorem gradient_descent_costs_nonneg (F : List (List ℚ)) (y : List ℚ)
    (alpha : ℚ) (it : ℕ) (tf cs : List ℚ)
    (h : gradient_descent F y alpha it = .ok (tf, cs)) : ∀ c ∈ cs, 0 ≤ c := by
  rw [gradient_descent] at h
  obtain ⟨X, _, h⟩ := bind_ok_inv h
  exact gdLoop_costs_nonneg X y alpha it _ tf cs h

theorem gradient_descent_zeroDiv (F : List (List ℚ)) (alpha : ℚ) (it : ℕ)
    (hR : Rect F) (hit : 0 < it) :
    gradient_descent F [] alpha it = .error .zeroDiv := by
  obtain ⟨k, rfl⟩ : ∃ k, it = k + 1 := ⟨it - 1, by omega⟩
  have h1 : augment F = .ok (designL F) := by rw [augment, if_pos hR]; rfl
  have hstep : gdStep (designL F) [] alpha
      (List.replicate (ncols (designL F)) 0) = .error .zeroDiv := by
    rw [gdStep, if_pos (by rfl : ([] : List ℚ).length = 0)]
  simp only [gradient_descent, h1, bind, Except.bind, gdLoop, hstep]

/-- On any rectangular feature matrix whose row count differs from the
target length, the normal-equation solver raises an error: `LinAlgError`
when `XᵀX` happens to be singular, and otherwise a shape `ValueError` at
the final `.dot(y)`. -/
theorem mlr_error (F : List (List ℚ)) (y : List ℚ) (hR : Rect F)
    (hne : y.length ≠ F.length) :
    ∃ e, multiple_linear_regression F y = .error e := by
  by_cases hF : F = []
  · subst hF
    have hy : y.length ≠ 0 := by simpa using hne
    have h1 : augment [] = .ok [] := rfl
    have h2 : npMatMul (transposeL []) [] = .ok [] := rfl
    have h3 : npLinalgInv [] = .ok [] := by
      rw [npLinalgInv, if_pos ⟨fun r hr => absurd hr (by simp), rfl⟩]
      simp only
      rw [if_neg (by rw [detQ]; exact one_ne_zero)]
      rfl
    have h4 : npMatMul [] (transposeL []) = .ok [] := rfl
    have h5 : npMatVec [] y = .error .shapeError := by
      rw [npMatVec, if_neg]
      rintro ⟨-, hc⟩
      exact hy (by simpa [ncols] using hc.symm)
    exact ⟨.shapeError,
      by simp only [multiple_linear_regression, h1, h2, h3, h4, h5, bind, Except.bind]⟩
  · set X := designL F with hX
    have hRX : Rect X := rect_designL F hR
    have hcX : 0 < ncols X := ncols_pos_designL F hF
    have hXlen : X.length = F.length := length_designL F
    have hTlen : (transposeL X).length = ncols X := length_transposeL X
    have hTcols : ncols (transposeL X) = X.length := ncols_transposeL X hcX
    set k := (XtXL F).length with hk
    have hkX : k = ncols X := by
      rw [hk, XtXL, length_matMulL, length_transposeL, hX]
    have hkpos : 0 < k := by omega
    have hXtXcols : ncols (XtXL F) = k := by rw [ncols_XtXL F hF, ← length_XtXL F hF]
    have h1 : augment F = .ok X := by rw [augment, if_pos hR]; rfl
    have h2 : npMatMul (transposeL X) X = .ok (XtXL F) :=
      npMatMul_ok _ _ (rect_transposeL X) hRX hTcols
    set B := toMat k k (XtXL F) with hB
    by_cases hdet : detQ B = 0
    · have h3 : npLinalgInv (XtXL F) = .error .singular := by
        rw [npLinalgInv, if_pos ⟨rect_XtXL F, by rw [hXtXcols]⟩]
        simp only
        rw [if_pos hdet]
      exact ⟨.singular,
        by simp only [multiple_linear_regression, h1, h2, h3, bind, Except.bind]⟩
    · set invL := ofMat k k ((detQ B)⁻¹ • adjQ B) with hinvL
      set Alist := matMulL invL (transposeL X) with hAlist
      have hinvLen : invL.length = k := length_ofMat _
      have hinvCols : ncols invL = k := ncols_ofMat _ hkpos
      have h3 : npLinalgInv (XtXL F) = .ok invL := by
        rw [npLinalgInv, if_pos ⟨rect_XtXL F, by rw [hXtXcols]⟩]
        simp only
        rw [if_neg hdet]
      have h4 : npMatMul invL (transposeL X) = .ok Alist :=
        npMatMul_ok _ _ (rect_ofMat _) (rect_transposeL X)
          (by rw [hinvCols, hTlen, hkX])
      have hAcols : ncols Alist = X.length := by
        rw [hAlist, ncols_matMulL _ _ (by
          intro h
          rw [h] at hinvLen
          simp at hinvLen
          omega), hTcols]
      have h5 : npMatVec Alist y = .error .shapeError := by
        rw [npMatVec, if_neg]
        rintro ⟨-, hc⟩
        rw [hAcols, hXlen] at hc
        exact hne hc.symm
      exact ⟨.shapeError,
        by simp only [multiple_linear_regression, h1, h2, h3, h4, h5, bind, Except.bind]⟩

/-- On any rectangular feature matrix whose row count differs from the
target length, the gradient-descent solver with at least one iteration
raises an error — provided the target length is not 1, in which case
numpy broadcasting silently repairs the mismatch. -/
theorem gd_error (F : List (List ℚ)) (y : List ℚ) (alpha : ℚ) (it : ℕ)
    (hR : Rect F) (hne : y.length ≠ F.length) (hy1 : y.length ≠ 1)
    (hit : 0 < it) : ∃ e, gradient_descent F y alpha it = .error e := by
  obtain ⟨k, rfl⟩ : ∃ k, it = k + 1 := ⟨it - 1, by omega⟩
  set X := designL F with hX
  have hRX : Rect X := rect_designL F hR
  have hXlen : X.length = F.length := length_designL F
  set θ0 := List.replicate (ncols X) (0 : ℚ) with hθ0
  have haug : augment F = .ok X := by rw [augment, if_pos hR]; rfl
  have hplen : (matVecL X θ0).length = F.length := by
    rw [length_matVecL, hXlen]
  have hp : npMatVec X θ0 = .ok (matVecL X θ0) :=
    npMatVec_ok _ _ hRX (by simp [hθ0])
  have hstep : ∃ e, gdStep X y alpha θ0 = .error e := by
    by_cases hm : y.length = 0
    · exact ⟨.zeroDiv, by rw [gdStep, if_pos hm]⟩
    · by_cases hF1 : F.length = 1
      · have hFne : F ≠ [] := by intro h; rw [h] at hF1; simp at hF1
        have hsub : npSub (matVecL X θ0) y =
            .ok (y.map (fun x => (matVecL X θ0).headD 0 - x)) := by
          rw [npSub, if_neg (by rw [hplen]; exact fun h => hne h.symm),
            if_neg hy1, if_pos (by rw [hplen, hF1])]
        have hxtd : npMatVec (transposeL X)
            (y.map (fun x => (matVecL X θ0).headD 0 - x)) = .error .shapeError := by
          rw [npMatVec, if_neg]
          rintro ⟨-, hc⟩
          rw [ncols_transposeL X (ncols_pos_designL F hFne), hXlen, hF1] at hc
          simp at hc
          exact hy1 hc.symm
        exact ⟨.shapeError, by
          rw [gdStep, if_neg hm]
          simp only [hp, hsub, hxtd, bind, Except.bind]⟩
      · have hsub : npSub (matVecL X θ0) y = .error .shapeError := by
          rw [npSub, if_neg (by rw [hplen]; exact fun h => hne h.symm),
            if_neg hy1, if_neg (by rw [hplen]; exact hF1)]
        exact ⟨.shapeError, by
          rw [gdStep, if_neg hm]
          simp only [hp, hsub, bind, Except.bind]⟩
  obtain ⟨e, he⟩ := hstep
  exact ⟨e, by simp only [gradient_descent, haug, bind, Except.bind, gdLoop, hθ0, he]⟩

end Lemmas

/-- C1: for every valid input and every iteration index `i < iterations`,
the cost recorded at index `i` of the cost history equals the
mean-squared-error cost `(1/(2m))·Σ(Xθ − y)²` evaluated with the
parameter vector obtained AFTER the update of step `i` (the `i+1`-st
iterate of the update map), exactly as the source computes it after
`theta = theta - alpha * gradients`. -/
theorem claim_C1 (F : List (List ℚ)) (y : List ℚ) (alpha : ℚ) (it : ℕ)
    (hR : Rect F) (hlen : y.length = F.length) (hy : y ≠ []) :
    ∃ θf hist, gradient_descent F y alpha it = .ok (θf, hist) ∧
      ∀ i < it, hist.getD i 0 = costVal (designL F) y (gdThetaAt F y alpha (i + 1)) := by
  refine ⟨_, _, gradient_descent_ok F y alpha it hR hlen hy, fun i hi => ?_⟩
  rw [getD_map_lt _ _ _ _ (by simpa using hi), List.getElem_range]

theorem claim_C1_witness :
    ∃ θf hist, gradient_descent [[1],[2]] [1,2] 1 3 = .ok (θf, hist) ∧
      ∀ i < 3, hist.getD i 0 =
        costVal (designL [[1],[2]]) [1,2] (gdThetaAt [[1],[2]] [1,2] 1 (i + 1)) :=
  claim_C1 [[1],[2]] [1,2] 1 3 (by decide) (by decide) (by decide)

/-- C2: on every valid input the gradient-descent solver starts from the
all-zero coefficient vector of length `n+1`, performs exactly `iterations`
full-batch steps of `θ ← θ − learningRate · (1/m)·Xᵀ(Xθ − y)` over the
design matrix of all `m` samples (the returned coefficients are the
`iterations`-th iterate of that update map, so there is no early stopping
and no sampling of rows). -/
theorem claim_C2 (F : List (List ℚ)) (y : List ℚ) (alpha : ℚ) (it : ℕ)
    (hR : Rect F) (hlen : y.length = F.length) (hy : y ≠ []) :
    ∃ hist, gradient_descent F y alpha it = .ok (gdThetaAt F y alpha it, hist) ∧
      gdThetaAt F y alpha 0 = List.replicate (ncols F + 1) 0 ∧
      ∀ j, gdThetaAt F y alpha (j + 1) =
        List.zipWith (· - ·) (gdThetaAt F y alpha j)
          ((matVecL (transposeL (designL F))
              (List.zipWith (· - ·)
                (matVecL (designL F) (gdThetaAt F y alpha j)) y)).map
            (fun t => alpha * ((1 / (y.length : ℚ)) * t))) := by
  refine ⟨_, gradient_descent_ok F y alpha it hR hlen hy, rfl, fun j => ?_⟩
  rw [gdThetaAt, Function.iterate_succ_apply']
  show gradStep (designL F) y alpha (gdThetaAt F y alpha j) = _
  rw [gradStep, List.map_map]
  rfl

theorem claim_C2_witness :
    ∃ hist, gradient_descent [[1],[2]] [1,2] 1 4 =
        .ok (gdThetaAt [[1],[2]] [1,2] 1 4, hist) ∧
      gdThetaAt [[1],[2]] [1,2] 1 0 = List.replicate (ncols [[1],[2]] + 1) 0 ∧
      ∀ j, gdThetaAt [[1],[2]] [1,2] 1 (j + 1) =
        List.zipWith (· - ·) (gdThetaAt [[1],[2]] [1,2] 1 j)
          ((matVecL (transposeL (designL [[1],[2]]))
              (List.zipWith (· - ·)
                (matVecL (designL [[1],[2]]) (gdThetaAt [[1],[2]] [1,2] 1 j)) [1,2])).map
            (fun t => 1 * ((1 / (([1,2] : List ℚ).length : ℚ)) * t))) :=
  claim_C2 [[1],[2]] [1,2] 1 4 (by decide) (by decide) (by decide)

/-- C3: for every rectangular nonempty feature matrix and target vector of
matching row count whose `XᵀX` is invertible (nonzero determinant), the
normal-equation solver succeeds and returns the unique exact solution of
`XᵀX · θ = Xᵀ y` of length `n+1` — i.e. exactly `(XᵀX)⁻¹ Xᵀ y`, computed
through the exact inverse `det⁻¹ · adjugate` with no pseudo-inverse or
least-squares fallback. -/
theorem claim_C3 (F : List (List ℚ)) (y : List ℚ) (hR : Rect F) (hF : F ≠ [])
    (hlen : y.length = F.length)
    (hdet : detQ (toMat (XtXL F).length (XtXL F).length (XtXL F)) ≠ 0) :
    ∃ θ, multiple_linear_regression F y = .ok θ ∧ θ.length = ncols F + 1 ∧
      matVecL (XtXL F) θ = XtyL F y ∧
      ∀ θ', θ'.length = ncols F + 1 → matVecL (XtXL F) θ' = XtyL F y → θ' = θ :=
  mlr_solves F y hR hF hlen hdet

theorem claim_C3_witness :
    ∃ θ, multiple_linear_regression [[0],[1]] [0,1] = .ok θ ∧
      θ.length = ncols [[0],[1]] + 1 ∧
      matVecL (XtXL [[0],[1]]) θ = XtyL [[0],[1]] [0,1] ∧
      ∀ θ', θ'.length = ncols [[0],[1]] + 1 →
        matVecL (XtXL [[0],[1]]) θ' = XtyL [[0],[1]] [0,1] → θ' = θ :=
  claim_C3 [[0],[1]] [0,1] (by decide) (by decide) (by decide) (by
    have hX : XtXL [[0],[1]] = [[2,1],[1,1]] := by
      norm_num [XtXL, designL, matMulL, matVecL, transposeL, dotL, ncols,
        List.range_succ]
    rw [hX]
    show detQ (toMat 2 2 [[2,1],[1,1]]) ≠ 0
    rw [detQ_eq_det, Matrix.det_fin_two]
    norm_num [toMat])

/-- C4: on the notebook's concrete example the normal-equation solver
returns exactly `[-3, -1, 3]` (so in particular within `1e-6` of it — the
arithmetic here is exact), and `predict` on `[[1,2],[2,5]]` with those
coefficients returns exactly `[2, 10]`. -/
theorem claim_C4 :
    multiple_linear_regression [[0,2],[2,3],[3,4],[4,5]] [3,4,6,8] =
      .ok [-3,-1,3] ∧
    predict [[1,2],[2,5]] [-3,-1,3] = .ok [2,10] := by
  constructor
  · have hX : XtXL [[0,2],[2,3],[3,4],[4,5]] = [[4,9,14],[9,29,38],[14,38,54]] := by
      norm_num [XtXL, designL, matMulL, matVecL, transposeL, dotL, ncols,
        List.range_succ]
    have hdet : detQ (toMat (XtXL [[0,2],[2,3],[3,4],[4,5]]).length
        (XtXL [[0,2],[2,3],[3,4],[4,5]]).length
        (XtXL [[0,2],[2,3],[3,4],[4,5]])) ≠ 0 := by
      rw [hX]
      show detQ (toMat 3 3 [[4,9,14],[9,29,38],[14,38,54]]) ≠ 0
      rw [detQ_eq_det, Matrix.det_fin_three]
      norm_num [toMat]
    obtain ⟨θ, hfit, hθlen, hsol, huniq⟩ :=
      mlr_solves [[0,2],[2,3],[3,4],[4,5]] [3,4,6,8] (by decide) (by decide)
        (by decide) hdet
    have hcand : ([-3,-1,3] : List ℚ) = θ := by
      apply huniq
      · decide
      · rw [hX]
        have hY : XtyL [[0,2],[2,3],[3,4],[4,5]] [3,4,6,8] = [21,58,82] := by
          norm_num [XtyL, designL, matVecL, transposeL, dotL, ncols,
            List.range_succ]
        rw [hY]
        norm_num [matVecL, dotL]
    rwa [← hcand] at hfit
  · have h1 : augment [[1,2],[2,5]] = .ok [[1,1,2],[1,2,5]] := rfl
    have h2 : npMatVec [[1,1,2],[1,2,5]] [-3,-1,3] = .ok [2,10] := by
      rw [npMatVec, if_pos (by decide)]
      norm_num [matVecL, dotL]
    simp only [predict, h1, h2, bind, Except.bind]

/-- C5 as stated is false: with `iterations = 0` the gradient-descent
solver never touches `y`, so on the mismatched input
`F = [[1]], y = [1, 2]` it raises nothing and returns the zero
coefficients with an empty history instead of failing. -/
theorem claim_C5_counterexample :
    gradient_descent [[1]] [1,2] 1 0 = .ok ([0,0], []) := by rfl

/-- C5 amended: on every rectangular feature matrix whose row count
differs from the target length, the normal-equation solver always raises
an error, and the gradient-descent solver raises an error provided it
performs at least one iteration and the mismatch is not silently repaired
by numpy broadcasting (target length 1); with zero iterations it returns
normally.  (Both functions are pure, so no input is ever mutated.) -/
theorem claim_C5_amended (F : List (List ℚ)) (y : List ℚ) (alpha : ℚ) (it : ℕ)
    (hR : Rect F) (hne : y.length ≠ F.length) :
    (∃ e, multiple_linear_regression F y = .error e) ∧
    (0 < it → y.length ≠ 1 → ∃ e, gradient_descent F y alpha it = .error e) :=
  ⟨mlr_error F y hR hne, fun hit hy1 => gd_error F y alpha it hR hne hy1 hit⟩

theorem claim_C5_amended_witness :
    (∃ e, multiple_linear_regression [[1],[2]] [1,2,3] = .error e) ∧
    (0 < 1 → ([1,2,3] : List ℚ).length ≠ 1 →
      ∃ e, gradient_descent [[1],[2]] [1,2,3] 1 1 = .error e) :=
  claim_C5_amended [[1],[2]] [1,2,3] 1 1 (by decide) (by decide)

/-- C6 as stated is false: the inline design-matrix construction performs
no emptiness validation, so a zero-row input and a zero-column input both
succeed instead of failing with a shape error. -/
theorem claim_C6_counterexample :
    augment ([] : List (List ℚ)) = .ok [] ∧
    augment [[],[]] = .ok [[1],[1]] := ⟨rfl, rfl⟩

/-- C6 amended: the design-matrix construction succeeds on every
rectangular input — including zero rows or zero columns — returning the
new matrix whose row `i` is `[1.0]` concatenated with input row `i`, and
fails with a shape error exactly on non-rectangular input (which cannot
form the 2-D numpy array the code requires). -/
theorem claim_C6_amended (X : List (List ℚ)) :
    (Rect X → augment X = .ok (X.map (fun r => (1:ℚ) :: r))) ∧
    (¬ Rect X → augment X = .error .shapeError) := by
  constructor <;> intro h
  · rw [augment, if_pos h]
  · rw [augment, if_neg h]

theorem claim_C6_amended_witness :
    augment [[1,2]] = .ok [[1,1,2]] ∧
    augment [[1],[2,3]] = .error .shapeError :=
  ⟨(claim_C6_amended [[1,2]]).1 (by decide),
   (claim_C6_amended [[1],[2,3]]).2 (by decide)⟩

/-- C7: on every valid input the gradient-descent solver returns a cost
history whose length equals the `iterations` argument, and with
`iterations = 0` it returns the all-zero coefficient vector of length
`n+1` together with an empty cost history. -/
theorem claim_C7 (F : List (List ℚ)) (y : List ℚ) (alpha : ℚ) (it : ℕ)
    (hR : Rect F) (hlen : y.length = F.length) (hy : y ≠ []) :
    (∃ θf hist, gradient_descent F y alpha it = .ok (θf, hist) ∧
      hist.length = it) ∧
    gradient_descent F y alpha 0 = .ok (List.replicate (ncols F + 1) 0, []) := by
  constructor
  · exact ⟨_, _, gradient_descent_ok F y alpha it hR hlen hy, by simp⟩
  · have h := gradient_descent_ok F y alpha 0 hR hlen hy
    simpa [gdThetaAt] using h

theorem claim_C7_witness :
    (∃ θf hist, gradient_descent [[1],[2]] [1,2] 1 5 = .ok (θf, hist) ∧
      hist.length = 5) ∧
    gradient_descent [[1],[2]] [1,2] 1 0 =
      .ok (List.replicate (ncols [[1],[2]] + 1) 0, []) :=
  claim_C7 [[1],[2]] [1,2] 1 5 (by decide) (by decide) (by decide)

/-- C8: both solvers are deterministic — two calls on identical inputs
return identical outputs; the embedded functions are pure and take all
state as explicit arguments, so there is no hidden random or shared state. -/
theorem claim_C8 (F F' : List (List ℚ)) (y y' : List ℚ) (alpha : ℚ) (it : ℕ)
    (hF : F = F') (hy : y = y') :
    multiple_linear_regression F y = multiple_linear_regression F' y' ∧
    gradient_descent F y alpha it = gradient_descent F' y' alpha it := by
  subst hF
  subst hy
  exact ⟨rfl, rfl⟩

theorem claim_C8_witness :
    multiple_linear_regression [[1]] [1] = multiple_linear_regression [[1]] [1] ∧
    gradient_descent [[1]] [1] 1 2 = gradient_descent [[1]] [1] 1 2 :=
  claim_C8 [[1]] [[1]] [1] [1] 1 2 rfl rfl

/-- C9: the two `predict` definitions in the source are extensionally
equal (they are the same code), and on well-shaped input both return the
design matrix of `F` multiplied by the coefficient vector. -/
theorem claim_C9 (F : List (List ℚ)) (theta : List ℚ) :
    predict F theta = predictGD F theta ∧
    (Rect F → F ≠ [] → theta.length = ncols F + 1 →
      predict F theta = .ok (matVecL (designL F) theta)) := by
  refine ⟨rfl, fun hR hF ht => ?_⟩
  have h1 : augment F = .ok (designL F) := by rw [augment, if_pos hR]; rfl
  have h2 : npMatVec (designL F) theta = .ok (matVecL (designL F) theta) :=
    npMatVec_ok _ _ (rect_designL F hR) (by rw [ncols_designL F hF, ht])
  simp only [predict, h1, h2, bind, Except.bind]

theorem claim_C9_witness :
    predict [[1,2]] [1,2,3] = predictGD [[1,2]] [1,2,3] ∧
    (Rect [[1,2]] → ([[1,2]] : List (List ℚ)) ≠ [] → ([1,2,3] : List ℚ).length = ncols [[1,2]] + 1 →
      predict [[1,2]] [1,2,3] = .ok (matVecL (designL [[1,2]]) [1,2,3])) :=
  claim_C9 [[1,2]] [1,2,3]

/-- C10: every cost the cost computation returns is non-negative, hence
every entry of any cost history the gradient-descent solver returns is
non-negative; and on an input with zero samples (`m = len(y) = 0`) the
unguarded `1/m` makes the solver fail with the division-by-zero error,
not with any shape or singularity error. -/
theorem claim_C10 :
    (∀ (X : List (List ℚ)) (y theta : List ℚ) (c : ℚ),
      compute_cost X y theta = .ok c → 0 ≤ c) ∧
    (∀ (F : List (List ℚ)) (y : List ℚ) (alpha : ℚ) (it : ℕ) (tf cs : List ℚ),
      gradient_descent F y alpha it = .ok (tf, cs) → ∀ c ∈ cs, 0 ≤ c) ∧
    (∀ (F : List (List ℚ)) (alpha : ℚ) (it : ℕ), Rect F → 0 < it →
      gradient_descent F [] alpha it = .error .zeroDiv) :=
  ⟨compute_cost_nonneg, gradient_descent_costs_nonneg,
   fun F alpha it hR hit => gradient_descent_zeroDiv F alpha it hR hit⟩

theorem claim_C10_witness :
    (0 : ℚ) ≤ 0 ∧ (∀ c ∈ ([] : List ℚ), 0 ≤ c) ∧
    gradient_descent [[1,2]] [] 1 1 = .error NpError.zeroDiv :=
  ⟨claim_C10.1 [] [1] [] 0 (by
      norm_num [compute_cost, npMatVec, npSub, Rect, ncols, matVecL, dotL,
        bind, Except.bind]),
   claim_C10.2.1 [[1]] [1] 1 0 [0,0] [] rfl,
   claim_C10.2.2 [[1,2]] 1 1 (by decide) (by decide)⟩

end LR

